import Mathlib

/-!
Verification of the sutro relay's room-scoped peer discovery registry
(`src/relay/src/main.rs`) and identity loading
(`load_or_create_identity` in both relay binaries).

The Rust registry is `HashMap<String, HashMap<String, PeerEntry>>`.  We
embed each `HashMap` as an association list `List (String × α)` together
with the key-uniqueness property `NodupKeys` that `HashMap` maintains.
Time (`Instant`) is embedded as `Nat` seconds; `now.duration_since t`
is `now - t` (both saturate at zero).
-/

namespace Sutro

/-! ### Association-list operations mirroring `HashMap` -/

/-- `HashMap::get` — first binding of `k`, if any. -/
def assocLookup {α : Type} (k : String) : List (String × α) → Option α
  | [] => none
  | (k', v) :: rest => if k' = k then some v else assocLookup k rest

/-- `HashMap::insert` — replace the binding of `k`, or add one. -/
def assocInsert {α : Type} (k : String) (v : α) : List (String × α) → List (String × α)
  | [] => [(k, v)]
  | (k', v') :: rest =>
    if k' = k then (k, v) :: rest else (k', v') :: assocInsert k v rest

/-- `HashMap::remove` — drop the binding of `k`, if any. -/
def assocErase {α : Type} (k : String) : List (String × α) → List (String × α)
  | [] => []
  | (k', v') :: rest => if k' = k then rest else (k', v') :: assocErase k rest

/-- In-place mutation through `HashMap::get_mut`: apply `f` at key `k`
if present, otherwise leave the map unchanged. -/
def assocUpdate {α : Type} (k : String) (f : α → α) : List (String × α) → List (String × α)
  | [] => []
  | (k', v) :: rest =>
    if k' = k then (k, f v) :: rest else (k', v) :: assocUpdate k f rest

/-- Key uniqueness: what `HashMap` guarantees for its entry list. -/
def NodupKeys {α : Type} (l : List (String × α)) : Prop :=
  (l.map Prod.fst).Nodup

/-! ### Data model (`src/relay/src/main.rs` lines 44–71) -/

structure PeerEntry where
  addrs : List String
  last_seen : Nat
deriving DecidableEq, Repr

structure DiscoveryRequest where
  room : String
  peer_id : String
  addrs : List String
deriving DecidableEq, Repr

structure PeerInfo where
  peer_id : String
  addrs : List String
deriving DecidableEq, Repr

structure DiscoveryResponse where
  peers : List PeerInfo
deriving DecidableEq, Repr

abbrev Room := List (String × PeerEntry)

abbrev RoomRegistry := List (String × Room)

def PEER_TTL : Nat := 30

def emptyRegistry : RoomRegistry := []

/-! ### Operations (`handle_discovery` lines 73–106, `remove_peer` lines 109–122) -/

/-- `room.retain(|_, entry| now.duration_since(entry.last_seen) < PEER_TTL)`. -/
def pruneRoom (now : Nat) (room : Room) : Room :=
  room.filter (fun e => decide (now - e.2.last_seen < PEER_TTL))

/-- `handle_discovery`: expire stale entries in the requested room,
upsert the requester, and snapshot every other member of the room. -/
def handle_discovery (registry : RoomRegistry) (req : DiscoveryRequest) (now : Nat) :
    RoomRegistry × DiscoveryResponse :=
  let rooms1 := assocUpdate req.room (pruneRoom now) registry
  let roomCur := (assocLookup req.room rooms1).getD []
  let room2 := assocInsert req.peer_id ⟨req.addrs, now⟩ roomCur
  let rooms2 := assocInsert req.room room2 rooms1
  let peers := (room2.filter (fun p => decide (p.1 ≠ req.peer_id))).map
    (fun p => PeerInfo.mk p.1 p.2.addrs)
  (rooms2, ⟨peers⟩)

/-- `remove_peer`: erase the peer from every room, collect the names of
rooms left empty, then remove those rooms. -/
def remove_peer (registry : RoomRegistry) (peer_id : String) : RoomRegistry :=
  let rooms1 := registry.map (fun r => (r.1, assocErase peer_id r.2))
  let empty_rooms := (rooms1.filter (fun r => r.2.isEmpty)).map Prod.fst
  empty_rooms.foldl (fun acc name => assocErase name acc) rooms1

/-- Well-formedness maintained by `HashMap`: unique room names and, in
each room, unique peer ids. -/
def WF (registry : RoomRegistry) : Prop :=
  NodupKeys registry ∧ ∀ r ∈ registry, NodupKeys r.2

/-- The registry invariant: well-formed and no empty room persists. -/
def Inv (registry : RoomRegistry) : Prop :=
  WF registry ∧ ∀ r ∈ registry, r.2 ≠ []

/-! ### Identity loading (`load_or_create_identity`, lines 283–310)

The cryptographic and file-system primitives are external (libp2p /
tokio); they enter the model as an oracle of abstract functions, while
the control flow of `load_or_create_identity` is embedded exactly.
A keypair is abstract data; `FsState.contents` is the byte content at
the identity path (`none` covers both an absent file and a failed
read, the two cases in which `fs::read` returns `Err`). -/

structure Keypair where
  secret : List Nat
deriving DecidableEq, Repr

/-- The external libp2p identity primitives used by
`load_or_create_identity`: the two decoders, the encoder (which is
fallible in the source), and peer-id derivation. -/
structure IdentOracle where
  from_protobuf_encoding : List Nat → Option Keypair
  ed25519_from_bytes : List Nat → Option Keypair
  to_protobuf_encoding : Keypair → Option (List Nat)
  to_peer_id : Keypair → List Nat

/-- File-system state at the identity path; `writeFails` models
`fs::write` returning `Err`. -/
structure FsState where
  contents : Option (List Nat)
  writeFails : Bool
deriving DecidableEq, Repr

/-- The tail of `load_or_create_identity` (lines 305–309): generate a
keypair, encode it (`?` propagates failure), write it (`?` propagates
failure), return it. -/
def generateAndPersist (o : IdentOracle) (gen : Keypair) (fs : FsState) :
    Except Unit (Keypair × FsState) :=
  match o.to_protobuf_encoding gen with
  | none => .error ()
  | some encoded =>
    if fs.writeFails then .error ()
    else .ok (gen, { contents := some encoded, writeFails := fs.writeFails })

/-- `load_or_create_identity`: if the file reads, try the protobuf
decoder, then (for 32-byte contents) the raw Ed25519 decoder; on any
failure fall through to generating and persisting a fresh keypair.
Returns the keypair and the resulting file-system state. -/
def load_or_create_identity (o : IdentOracle) (gen : Keypair) (fs : FsState) :
    Except Unit (Keypair × FsState) :=
  match fs.contents with
  | some data =>
    match o.from_protobuf_encoding data with
    | some kp => .ok (kp, fs)
    | none =>
      if data.length = 32 then
        match o.ed25519_from_bytes data with
        | some kp => .ok (kp, fs)
        | none => generateAndPersist o gen fs
      else generateAndPersist o gen fs
  | none => generateAndPersist o gen fs

/-- The file at the identity path reads and decodes (by either
decoder), so `load_or_create_identity` returns it without touching
the file system. -/
def decodable (o : IdentOracle) (fs : FsState) : Prop :=
  ∃ data, fs.contents = some data ∧
    ((o.from_protobuf_encoding data).isSome ∨
      (data.length = 32 ∧ (o.ed25519_from_bytes data).isSome))

instance (o : IdentOracle) (fs : FsState) : Decidable (decodable o fs) := by
  unfold decodable
  cases fs.contents with
  | none => exact .isFalse (by simp)
  | some data =>
    exact decidable_of_iff
      ((o.from_protobuf_encoding data).isSome ∨
        (data.length = 32 ∧ (o.ed25519_from_bytes data).isSome)) (by simp)

example :
    (handle_discovery emptyRegistry ⟨"lobby", "p1", ["a1"]⟩ 0).2.peers = [] := by
  decide

example :
    (handle_discovery
      (handle_discovery emptyRegistry ⟨"lobby", "p1", ["a1"]⟩ 0).1
      ⟨"lobby", "p2", ["a2"]⟩ 1).2.peers = [⟨"p1", ["a1"]⟩] := by
  decide

/-! ### Association-list lemmas -/

section AssocLemmas

variable {α : Type}

theorem assocLookup_insert (k : String) (v : α) (l : List (String × α)) :
    assocLookup k (assocInsert k v l) = some v := by
  induction l with
  | nil => simp [assocInsert, assocLookup]
  | cons hd tl ih =>
    obtain ⟨a, b⟩ := hd
    by_cases h : a = k
    · simp [assocInsert, h, assocLookup]
    · simp [assocInsert, h, assocLookup, ih]

theorem assocLookup_insert_ne {k k' : String} (v : α) (l : List (String × α))
    (h : k' ≠ k) : assocLookup k' (assocInsert k v l) = assocLookup k' l := by
  have hkk : ¬ k = k' := fun h' => h h'.symm
  induction l with
  | nil => simp [assocInsert, assocLookup, hkk]
  | cons hd tl ih =>
    obtain ⟨a, b⟩ := hd
    by_cases ha : a = k
    · subst ha
      simp [assocInsert, assocLookup, hkk]
    · simp [assocInsert, ha, assocLookup, ih]

theorem assocLookup_update (k : String) (f : α → α) (l : List (String × α)) :
    assocLookup k (assocUpdate k f l) = (assocLookup k l).map f := by
  induction l with
  | nil => simp [assocUpdate, assocLookup]
  | cons hd tl ih =>
    obtain ⟨a, b⟩ := hd
    by_cases h : a = k
    · simp [assocUpdate, h, assocLookup]
    · simp [assocUpdate, h, assocLookup, ih]

theorem assocLookup_update_ne {k k' : String} (f : α → α) (l : List (String × α))
    (h : k' ≠ k) : assocLookup k' (assocUpdate k f l) = assocLookup k' l := by
  have hkk : ¬ k = k' := fun h' => h h'.symm
  induction l with
  | nil => simp [assocUpdate]
  | cons hd tl ih =>
    obtain ⟨a, b⟩ := hd
    by_cases ha : a = k
    · subst ha
      simp [assocUpdate, assocLookup, hkk]
    · simp [assocUpdate, ha, assocLookup, ih]

theorem nodupKeys_cons_iff {a : String} {b : α} {tl : List (String × α)} :
    NodupKeys ((a, b) :: tl) ↔ a ∉ tl.map Prod.fst ∧ NodupKeys tl := by
  simp [NodupKeys]

theorem not_mem_of_key_not_mem {a : String} {v : α} {tl : List (String × α)}
    (h : a ∉ tl.map Prod.fst) : (a, v) ∉ tl :=
  fun hv => h (List.mem_map_of_mem _ hv)

theorem assocLookup_eq_none {k : String} {l : List (String × α)} :
    assocLookup k l = none ↔ ∀ v : α, (k, v) ∉ l := by
  induction l with
  | nil => simp [assocLookup]
  | cons hd tl ih =>
    obtain ⟨a, b⟩ := hd
    by_cases h : a = k
    · subst h
      constructor
      · intro hnone
        simp [assocLookup] at hnone
      · intro hall
        exact absurd (List.mem_cons_self _ _) (hall b)
    · simp only [assocLookup, if_neg h, ih]
      constructor
      · intro hall v hv
        rcases List.mem_cons.mp hv with h1 | h1
        · exact h (congrArg Prod.fst h1).symm
        · exact hall v h1
      · intro hall v hv
        exact hall v (List.mem_cons_of_mem _ hv)

theorem assocLookup_mem {k : String} {v : α} {l : List (String × α)}
    (h : assocLookup k l = some v) : (k, v) ∈ l := by
  induction l with
  | nil => simp [assocLookup] at h
  | cons hd tl ih =>
    obtain ⟨a, b⟩ := hd
    by_cases ha : a = k
    · subst ha
      simp [assocLookup] at h
      simp [h]
    · simp [assocLookup, ha] at h
      exact List.mem_cons_of_mem _ (ih h)

theorem mem_assocLookup {k : String} {v : α} {l : List (String × α)}
    (hnd : NodupKeys l) (h : (k, v) ∈ l) : assocLookup k l = some v := by
  induction l with
  | nil => simp at h
  | cons hd tl ih =>
    obtain ⟨a, b⟩ := hd
    rcases List.mem_cons.mp h with h1 | h1
    · cases h1
      simp [assocLookup]
    · have ha : ¬ a = k := by
        intro heq
        subst heq
        exact not_mem_of_key_not_mem (nodupKeys_cons_iff.mp hnd).1 h1
      simp only [assocLookup, if_neg ha]
      exact ih (nodupKeys_cons_iff.mp hnd).2 h1

theorem assocErase_sublist (k : String) (l : List (String × α)) :
    (assocErase k l).Sublist l := by
  induction l with
  | nil => simp [assocErase]
  | cons hd tl ih =>
    obtain ⟨a, b⟩ := hd
    by_cases h : a = k
    · simp only [assocErase, if_pos h]
      exact List.sublist_cons_self _ _
    · simp only [assocErase, if_neg h]
      exact ih.cons₂ _

theorem assocLookup_erase_ne {k k' : String} (l : List (String × α))
    (h : k' ≠ k) : assocLookup k' (assocErase k l) = assocLookup k' l := by
  have hkk : ¬ k = k' := fun h' => h h'.symm
  induction l with
  | nil => simp [assocErase]
  | cons hd tl ih =>
    obtain ⟨a, b⟩ := hd
    by_cases ha : a = k
    · subst ha
      simp [assocErase, assocLookup, hkk]
    · simp [assocErase, ha, assocLookup, ih]

theorem assocLookup_erase {k : String} {l : List (String × α)}
    (hnd : NodupKeys l) : assocLookup k (assocErase k l) = none := by
  induction l with
  | nil => simp [assocErase, assocLookup]
  | cons hd tl ih =>
    obtain ⟨a, b⟩ := hd
    by_cases h : a = k
    · subst h
      simp only [assocErase, if_pos rfl]
      rw [assocLookup_eq_none]
      intro v hv
      exact not_mem_of_key_not_mem (nodupKeys_cons_iff.mp hnd).1 hv
    · simp only [assocErase, if_neg h, assocLookup, if_neg h]
      exact ih (nodupKeys_cons_iff.mp hnd).2

theorem assocErase_of_lookup_none {k : String} {l : List (String × α)}
    (h : assocLookup k l = none) : assocErase k l = l := by
  induction l with
  | nil => simp [assocErase]
  | cons hd tl ih =>
    obtain ⟨a, b⟩ := hd
    by_cases ha : a = k
    · simp [assocLookup, ha] at h
    · simp [assocLookup, ha] at h
      simp [assocErase, ha, ih h]

theorem keys_assocUpdate (k : String) (f : α → α) (l : List (String × α)) :
    (assocUpdate k f l).map Prod.fst = l.map Prod.fst := by
  induction l with
  | nil => simp [assocUpdate]
  | cons hd tl ih =>
    obtain ⟨a, b⟩ := hd
    by_cases h : a = k
    · subst h
      simp [assocUpdate]
    · simp [assocUpdate, h, ih]

theorem nodupKeys_assocUpdate {k : String} {f : α → α} {l : List (String × α)}
    (h : NodupKeys l) : NodupKeys (assocUpdate k f l) := by
  unfold NodupKeys at *
  rw [keys_assocUpdate]
  exact h

theorem nodupKeys_of_sublist {l l' : List (String × α)}
    (hs : l'.Sublist l) (h : NodupKeys l) : NodupKeys l' :=
  List.Nodup.sublist (hs.map Prod.fst) h

theorem nodupKeys_filter {l : List (String × α)} (p : String × α → Bool)
    (h : NodupKeys l) : NodupKeys (l.filter p) :=
  nodupKeys_of_sublist (List.filter_sublist l) h

theorem nodupKeys_assocErase {k : String} {l : List (String × α)}
    (h : NodupKeys l) : NodupKeys (assocErase k l) :=
  nodupKeys_of_sublist (assocErase_sublist k l) h

theorem of_mem_assocInsert {k : String} {v : α} {x : String × α}
    {l : List (String × α)} (h : x ∈ assocInsert k v l) : x = (k, v) ∨ x ∈ l := by
  induction l with
  | nil => simpa [assocInsert] using h
  | cons hd tl ih =>
    obtain ⟨a, b⟩ := hd
    by_cases ha : a = k
    · subst ha
      rw [show assocInsert a v ((a, b) :: tl) = (a, v) :: tl by simp [assocInsert]] at h
      rcases List.mem_cons.mp h with h1 | h1
      · exact Or.inl h1
      · exact Or.inr (List.mem_cons_of_mem _ h1)
    · rw [show assocInsert k v ((a, b) :: tl) = (a, b) :: assocInsert k v tl by
        simp [assocInsert, ha]] at h
      rcases List.mem_cons.mp h with h1 | h1
      · exact Or.inr (h1 ▸ List.mem_cons_self _ _)
      · rcases ih h1 with h2 | h2
        · exact Or.inl h2
        · exact Or.inr (List.mem_cons_of_mem _ h2)

theorem nodupKeys_assocInsert {k : String} {v : α} {l : List (String × α)}
    (h : NodupKeys l) : NodupKeys (assocInsert k v l) := by
  induction l with
  | nil => simp [assocInsert, NodupKeys]
  | cons hd tl ih =>
    obtain ⟨a, b⟩ := hd
    by_cases ha : a = k
    · subst ha
      rw [show assocInsert a v ((a, b) :: tl) = (a, v) :: tl by simp [assocInsert]]
      rw [nodupKeys_cons_iff] at *
      exact h
    · rw [show assocInsert k v ((a, b) :: tl) = (a, b) :: assocInsert k v tl by
        simp [assocInsert, ha]]
      rw [nodupKeys_cons_iff] at h ⊢
      refine ⟨?_, ih h.2⟩
      intro hmem
      rcases List.mem_map.mp hmem with ⟨x, hx, hfst⟩
      rcases of_mem_assocInsert hx with h1 | h1
      · exact ha (by rw [← hfst, h1])
      · exact h.1 (hfst ▸ List.mem_map_of_mem _ h1)

theorem mem_assocInsert_ne {k : String} {v : α} {x : String × α}
    {l : List (String × α)} (hx : x.1 ≠ k) :
    x ∈ assocInsert k v l ↔ x ∈ l := by
  induction l with
  | nil =>
    simp only [assocInsert, List.mem_singleton, List.not_mem_nil, iff_false]
    intro h1
    exact hx (congrArg Prod.fst h1)
  | cons hd tl ih =>
    obtain ⟨a, b⟩ := hd
    by_cases ha : a = k
    · subst ha
      rw [show assocInsert a v ((a, b) :: tl) = (a, v) :: tl by simp [assocInsert]]
      simp only [List.mem_cons]
      constructor
      · intro h1
        rcases h1 with h1 | h1
        · exact absurd (congrArg Prod.fst h1) hx
        · exact Or.inr h1
      · intro h1
        rcases h1 with h1 | h1
        · exact absurd (congrArg Prod.fst h1) hx
        · exact Or.inr h1
    · rw [show assocInsert k v ((a, b) :: tl) = (a, b) :: assocInsert k v tl by
        simp [assocInsert, ha]]
      simp only [List.mem_cons, ih]

theorem mem_assocInsert_iff {k : String} {v : α} {x : String × α}
    {l : List (String × α)} (hnd : NodupKeys l) :
    x ∈ assocInsert k v l ↔ x = (k, v) ∨ (x ∈ l ∧ x.1 ≠ k) := by
  induction l with
  | nil => simp [assocInsert]
  | cons hd tl ih =>
    obtain ⟨a, b⟩ := hd
    obtain ⟨ha, hnd'⟩ := nodupKeys_cons_iff.mp hnd
    by_cases hak : a = k
    · subst hak
      rw [show assocInsert a v ((a, b) :: tl) = (a, v) :: tl by simp [assocInsert]]
      simp only [List.mem_cons]
      constructor
      · rintro (h1 | h1)
        · exact Or.inl h1
        · refine Or.inr ⟨Or.inr h1, ?_⟩
          intro hx1
          exact ha (hx1 ▸ List.mem_map_of_mem Prod.fst h1)
      · rintro (h1 | ⟨h1 | h1, h2⟩)
        · exact Or.inl h1
        · exact absurd (congrArg Prod.fst h1) h2
        · exact Or.inr h1
    · rw [show assocInsert k v ((a, b) :: tl) = (a, b) :: assocInsert k v tl by
        simp [assocInsert, hak]]
      simp only [List.mem_cons, ih hnd']
      constructor
      · rintro (h1 | h1 | ⟨h1, h2⟩)
        · refine Or.inr ⟨Or.inl h1, ?_⟩
          intro hx1
          exact hak ((congrArg Prod.fst h1).symm.trans hx1)
        · exact Or.inl h1
        · exact Or.inr ⟨Or.inr h1, h2⟩
      · rintro (h1 | ⟨h1 | h1, h2⟩)
        · exact Or.inr (Or.inl h1)
        · exact Or.inl h1
        · exact Or.inr (Or.inr ⟨h1, h2⟩)

theorem mem_assocUpdate {k : String} {f : α → α} {x : String × α}
    {l : List (String × α)} (h : x ∈ assocUpdate k f l) :
    x ∈ l ∨ ∃ v, (k, v) ∈ l ∧ x = (k, f v) := by
  induction l with
  | nil => simp [assocUpdate] at h
  | cons hd tl ih =>
    obtain ⟨a, b⟩ := hd
    by_cases ha : a = k
    · subst ha
      rw [show assocUpdate a f ((a, b) :: tl) = (a, f b) :: tl by simp [assocUpdate]] at h
      rcases List.mem_cons.mp h with h1 | h1
      · exact Or.inr ⟨b, List.mem_cons_self _ _, h1⟩
      · exact Or.inl (List.mem_cons_of_mem _ h1)
    · rw [show assocUpdate k f ((a, b) :: tl) = (a, b) :: assocUpdate k f tl by
        simp [assocUpdate, ha]] at h
      rcases List.mem_cons.mp h with h1 | h1
      · exact Or.inl (h1 ▸ List.mem_cons_self _ _)
      · rcases ih h1 with h2 | ⟨v, hv, hx⟩
        · exact Or.inl (List.mem_cons_of_mem _ h2)
        · exact Or.inr ⟨v, List.mem_cons_of_mem _ hv, hx⟩

theorem mem_assocUpdate_ne {k : String} {f : α → α} {x : String × α}
    {l : List (String × α)} (h : x ∈ assocUpdate k f l) (hx : x.1 ≠ k) :
    x ∈ l := by
  rcases mem_assocUpdate h with h1 | ⟨v, _, hx1⟩
  · exact h1
  · exact absurd (congrArg Prod.fst hx1) hx

theorem assocInsert_ne_nil {k : String} {v : α} {l : List (String × α)} :
    assocInsert k v l ≠ [] := by
  cases l with
  | nil => simp [assocInsert]
  | cons hd tl =>
    obtain ⟨a, b⟩ := hd
    by_cases h : a = k
    · simp [assocInsert, h]
    · simp [assocInsert, h]

theorem keys_mapSnd {β : Type} (g : String → α → β) (l : List (String × α)) :
    (l.map (fun x => (x.1, g x.1 x.2))).map Prod.fst = l.map Prod.fst := by
  induction l with
  | nil => rfl
  | cons hd tl ih => simp [ih]

theorem assocLookup_mapSnd {β : Type} (g : α → β) (k : String)
    (l : List (String × α)) :
    assocLookup k (l.map (fun x => (x.1, g x.2))) = (assocLookup k l).map g := by
  induction l with
  | nil => simp [assocLookup]
  | cons hd tl ih =>
    obtain ⟨a, b⟩ := hd
    by_cases h : a = k
    · simp [assocLookup, h]
    · simp [assocLookup, h, ih]

theorem assocLookup_filter {Q : String × α → Bool} {k : String}
    {l : List (String × α)} (hnd : NodupKeys l) :
    assocLookup k (l.filter Q) =
      (assocLookup k l).bind (fun v => if Q (k, v) then some v else none) := by
  induction l with
  | nil => simp [assocLookup]
  | cons hd tl ih =>
    obtain ⟨a, b⟩ := hd
    obtain ⟨ha, hnd'⟩ := nodupKeys_cons_iff.mp hnd
    by_cases hQ : Q (a, b)
    · by_cases hk : a = k
      · subst hk
        simp [List.filter_cons, hQ, assocLookup]
      · simp [List.filter_cons, hQ, assocLookup, hk, ih hnd']
    · by_cases hk : a = k
      · subst hk
        have h2 : assocLookup a (tl.filter Q) = none := by
          rw [assocLookup_eq_none]
          intro v hv
          exact not_mem_of_key_not_mem ha (List.mem_of_mem_filter hv)
        simp [List.filter_cons, hQ, assocLookup, h2]
      · simp [List.filter_cons, hQ, assocLookup, hk, ih hnd']

theorem foldl_assocErase_cons {ns : List String} {x : String × α}
    {l : List (String × α)} (h : ∀ n ∈ ns, n ≠ x.1) :
    ns.foldl (fun acc n => assocErase n acc) (x :: l) =
      x :: ns.foldl (fun acc n => assocErase n acc) l := by
  induction ns generalizing l with
  | nil => rfl
  | cons n ns ih =>
    obtain ⟨a, b⟩ := x
    have hna : ¬ a = n := fun h' => h n (List.mem_cons_self _ _) h'.symm
    simp only [List.foldl_cons]
    rw [show assocErase n ((a, b) :: l) = (a, b) :: assocErase n l by
      simp [assocErase, hna]]
    exact ih (fun m hm => h m (List.mem_cons_of_mem _ hm))

theorem foldl_erase_filter (P : String × α → Bool) (l : List (String × α))
    (hnd : NodupKeys l) :
    ((l.filter P).map Prod.fst).foldl (fun acc n => assocErase n acc) l =
      l.filter (fun x => !(P x)) := by
  induction l with
  | nil => rfl
  | cons hd tl ih =>
    obtain ⟨a, b⟩ := hd
    obtain ⟨ha, hnd'⟩ := nodupKeys_cons_iff.mp hnd
    by_cases hP : P (a, b)
    · rw [show ((a, b) :: tl).filter P = (a, b) :: tl.filter P by
        simp [List.filter_cons, hP]]
      simp only [List.map_cons, List.foldl_cons]
      rw [show assocErase a ((a, b) :: tl) = tl by simp [assocErase]]
      rw [ih hnd']
      simp [List.filter_cons, hP]
    · rw [show ((a, b) :: tl).filter P = tl.filter P by simp [List.filter_cons, hP]]
      rw [foldl_assocErase_cons]
      · rw [ih hnd']
        simp [List.filter_cons, hP]
      · intro n hn
        rcases List.mem_map.mp hn with ⟨x, hx, hfst⟩
        intro hcon
        have hxa : x.1 = a := hfst.trans hcon
        have : a ∈ tl.map Prod.fst :=
          hxa ▸ List.mem_map_of_mem _ (List.mem_of_mem_filter hx)
        exact ha this

/-- Under key uniqueness, the two-phase empty-room sweep of `remove_peer`
is the same as filtering out the rooms left empty. -/
theorem remove_peer_eq_filter {registry : RoomRegistry} (p : String)
    (hnd : NodupKeys registry) :
    remove_peer registry p =
      (registry.map (fun r => (r.1, assocErase p r.2))).filter
        (fun r => !(r.2.isEmpty)) := by
  have hnd1 : NodupKeys (registry.map (fun r => (r.1, assocErase p r.2))) := by
    unfold NodupKeys at *
    rw [keys_mapSnd (fun _ room => assocErase p room)]
    exact hnd
  exact foldl_erase_filter _ _ hnd1

end AssocLemmas

/-! ### Structure of `handle_discovery` and `remove_peer` -/

theorem handle_discovery_fst (registry : RoomRegistry) (req : DiscoveryRequest)
    (now : Nat) :
    (handle_discovery registry req now).1 =
      assocInsert req.room
        (assocInsert req.peer_id ⟨req.addrs, now⟩
          ((assocLookup req.room
            (assocUpdate req.room (pruneRoom now) registry)).getD []))
        (assocUpdate req.room (pruneRoom now) registry) := rfl

theorem handle_discovery_snd (registry : RoomRegistry) (req : DiscoveryRequest)
    (now : Nat) :
    (handle_discovery registry req now).2.peers =
      ((assocInsert req.peer_id ⟨req.addrs, now⟩
        ((assocLookup req.room
          (assocUpdate req.room (pruneRoom now) registry)).getD [])).filter
        (fun p => decide (p.1 ≠ req.peer_id))).map
        (fun p => PeerInfo.mk p.1 p.2.addrs) := rfl

/-- The room the requester lands in, after pruning and upsert. -/
theorem handle_discovery_lookup_room (registry : RoomRegistry)
    (req : DiscoveryRequest) (now : Nat) :
    assocLookup req.room (handle_discovery registry req now).1 =
      some (assocInsert req.peer_id ⟨req.addrs, now⟩
        (((assocLookup req.room registry).map (pruneRoom now)).getD [])) := by
  rw [handle_discovery_fst, assocLookup_insert, assocLookup_update]

/-- Rooms other than the requested one are untouched. -/
theorem handle_discovery_lookup_other (registry : RoomRegistry)
    (req : DiscoveryRequest) (now : Nat) (r : String) (hr : r ≠ req.room) :
    assocLookup r (handle_discovery registry req now).1 = assocLookup r registry := by
  rw [handle_discovery_fst, assocLookup_insert_ne _ _ hr,
    assocLookup_update_ne _ _ hr]

theorem nodupKeys_pruned_room {registry : RoomRegistry} {req : DiscoveryRequest}
    {now : Nat} (hrooms : ∀ r ∈ registry, NodupKeys r.2) :
    NodupKeys (((assocLookup req.room
      (assocUpdate req.room (pruneRoom now) registry)).getD []) : Room) := by
  rw [assocLookup_update]
  cases hl : assocLookup req.room registry with
  | none => simp [NodupKeys]
  | some rm =>
    simp only [Option.map_some', Option.getD_some]
    exact nodupKeys_filter _ (hrooms _ (assocLookup_mem hl))

theorem nodupKeys_room_after {registry : RoomRegistry} {req : DiscoveryRequest}
    {now : Nat} (hrooms : ∀ r ∈ registry, NodupKeys r.2) :
    NodupKeys (assocInsert req.peer_id ⟨req.addrs, now⟩
      ((assocLookup req.room
        (assocUpdate req.room (pruneRoom now) registry)).getD [])) :=
  nodupKeys_assocInsert (nodupKeys_pruned_room hrooms)

theorem wf_handle_discovery {registry : RoomRegistry} {req : DiscoveryRequest}
    {now : Nat} (h : WF registry) : WF (handle_discovery registry req now).1 := by
  obtain ⟨hnd, hrooms⟩ := h
  rw [handle_discovery_fst]
  constructor
  · exact nodupKeys_assocInsert (nodupKeys_assocUpdate hnd)
  · intro r hr
    rcases of_mem_assocInsert hr with h1 | h1
    · rw [h1]
      exact nodupKeys_room_after hrooms
    · rcases mem_assocUpdate h1 with h2 | ⟨rm, hrm, hr2⟩
      · exact hrooms r h2
      · rw [hr2]
        exact nodupKeys_filter _ (hrooms (req.room, rm) hrm)

theorem inv_empty : Inv emptyRegistry := by
  refine ⟨⟨?_, ?_⟩, ?_⟩ <;> simp [emptyRegistry, NodupKeys]

theorem inv_handle_discovery {registry : RoomRegistry} {req : DiscoveryRequest}
    {now : Nat} (h : Inv registry) : Inv (handle_discovery registry req now).1 := by
  obtain ⟨hwf, hne⟩ := h
  refine ⟨wf_handle_discovery hwf, ?_⟩
  intro r hr
  rw [handle_discovery_fst] at hr
  rcases (mem_assocInsert_iff (nodupKeys_assocUpdate hwf.1)).mp hr with h1 | ⟨h1, h2⟩
  · rw [h1]
    exact assocInsert_ne_nil
  · exact hne r (mem_assocUpdate_ne h1 h2)

theorem wf_remove_peer {registry : RoomRegistry} {p : String}
    (h : WF registry) : WF (remove_peer registry p) := by
  rw [remove_peer_eq_filter p h.1]
  constructor
  · apply nodupKeys_filter
    unfold NodupKeys at *
    rw [keys_mapSnd (fun _ room => assocErase p room)]
    exact h.1
  · intro r hr
    rcases List.mem_map.mp (List.mem_of_mem_filter hr) with ⟨x, hx, hfx⟩
    rw [← hfx]
    exact nodupKeys_assocErase (h.2 x hx)

theorem inv_remove_peer {registry : RoomRegistry} {p : String}
    (h : Inv registry) : Inv (remove_peer registry p) := by
  refine ⟨wf_remove_peer h.1, ?_⟩
  rw [remove_peer_eq_filter p h.1.1]
  intro r hr
  have hpred := List.of_mem_filter hr
  intro hnil
  rw [hnil] at hpred
  simp at hpred

theorem remove_peer_lookup {registry : RoomRegistry} {p : String}
    (h : WF registry) (r : String) :
    assocLookup r (remove_peer registry p) =
      (assocLookup r registry).bind
        (fun rm => if (assocErase p rm).isEmpty then none
          else some (assocErase p rm)) := by
  have hnd1 : NodupKeys (registry.map (fun x => (x.1, assocErase p x.2))) := by
    unfold NodupKeys at *
    rw [keys_mapSnd (fun _ room => assocErase p room)]
    exact h.1
  rw [remove_peer_eq_filter p h.1, assocLookup_filter hnd1,
    assocLookup_mapSnd (assocErase p) r registry]
  cases assocLookup r registry with
  | none => rfl
  | some rm =>
    simp only [Option.map_some', Option.some_bind]
    by_cases hemp : (assocErase p rm).isEmpty
    · simp [hemp]
    · simp [hemp]

/-- If the peer is in no room and no room is empty, `remove_peer`
leaves the registry literally unchanged. -/
theorem remove_peer_of_absent {registry : RoomRegistry} {p : String}
    (hempty : ∀ r ∈ registry, r.2 ≠ [])
    (habs : ∀ r ∈ registry, assocLookup p r.2 = none) :
    remove_peer registry p = registry := by
  have h1 : registry.map (fun r => (r.1, assocErase p r.2)) = registry := by
    rw [List.map_congr_left (fun r hr => ?_), List.map_id]
    rw [assocErase_of_lookup_none (habs r hr)]
    rfl
  have h2 : registry.filter (fun r => r.2.isEmpty) = [] := by
    rw [List.filter_eq_nil_iff]
    intro r hr
    simpa using hempty r hr
  show (((registry.map (fun r => (r.1, assocErase p r.2))).filter
      (fun r => r.2.isEmpty)).map Prod.fst).foldl (fun acc n => assocErase n acc)
      (registry.map (fun r => (r.1, assocErase p r.2))) = registry
  rw [h1, h2]
  rfl

/-! ### Structure of `load_or_create_identity` -/

theorem generateAndPersist_error_iff {o : IdentOracle} {gen : Keypair}
    {fs : FsState} :
    generateAndPersist o gen fs = .error () ↔
      (o.to_protobuf_encoding gen = none ∨ fs.writeFails = true) := by
  unfold generateAndPersist
  cases he : o.to_protobuf_encoding gen with
  | none => simp
  | some enc =>
    cases hw : fs.writeFails with
    | true => simp
    | false => simp

theorem generateAndPersist_ok_elim {o : IdentOracle} {gen kp : Keypair}
    {fs fs1 : FsState} (h : generateAndPersist o gen fs = .ok (kp, fs1)) :
    kp = gen ∧ ∃ enc, o.to_protobuf_encoding gen = some enc ∧
      fs.writeFails = false ∧ fs1 = ⟨some enc, false⟩ := by
  unfold generateAndPersist at h
  cases he : o.to_protobuf_encoding gen with
  | none =>
    rw [he] at h
    simp at h
  | some enc =>
    rw [he] at h
    cases hw : fs.writeFails with
    | true =>
      rw [hw] at h
      simp at h
    | false =>
      rw [hw] at h
      simp at h
      exact ⟨h.1.symm, enc, rfl, rfl, h.2.symm⟩

/-- When the file is absent, unreadable or undecodable, the call falls
through to the generate-and-persist tail. -/
theorem load_eq_persist_of_not_decodable {o : IdentOracle} (gen : Keypair)
    {fs : FsState} (h : ¬ decodable o fs) :
    load_or_create_identity o gen fs = generateAndPersist o gen fs := by
  cases hc : fs.contents with
  | none => simp [load_or_create_identity, hc]
  | some data =>
    have hfp : o.from_protobuf_encoding data = none := by
      cases hfp : o.from_protobuf_encoding data with
      | none => rfl
      | some kp => exact absurd ⟨data, hc, Or.inl (by simp [hfp])⟩ h
    by_cases h32 : data.length = 32
    · have hed : o.ed25519_from_bytes data = none := by
        cases hed : o.ed25519_from_bytes data with
        | none => rfl
        | some kp => exact absurd ⟨data, hc, Or.inr ⟨h32, by simp [hed]⟩⟩ h
      simp [load_or_create_identity, hc, hfp, h32, hed]
    · simp [load_or_create_identity, hc, hfp, h32]

/-- A decodable file is returned as-is, without touching the file
system. -/
theorem load_ok_of_decodable {o : IdentOracle} (gen : Keypair) {fs : FsState}
    (h : decodable o fs) :
    ∃ kp, load_or_create_identity o gen fs = .ok (kp, fs) := by
  obtain ⟨data, hc, hd⟩ := h
  cases hfp : o.from_protobuf_encoding data with
  | some kp => exact ⟨kp, by simp [load_or_create_identity, hc, hfp]⟩
  | none =>
    rcases hd with hd | ⟨h32, hd⟩
    · rw [hfp] at hd
      simp at hd
    · obtain ⟨kp, hkp⟩ := Option.isSome_iff_exists.mp hd
      exact ⟨kp, by simp [load_or_create_identity, hc, hfp, h32, hkp]⟩

/-! ### Claim theorems -/

/-- C1: the response of `handle_discovery` consists of exactly the
entries of the requested room, as recorded in the registry after
pruning and upsert, minus the requester; it never contains the
requester's own entry, for any prior registry state. -/
theorem handle_discovery_response_exact (registry : RoomRegistry)
    (req : DiscoveryRequest) (now : Nat) :
    ∃ rm : Room,
      assocLookup req.room (handle_discovery registry req now).1 = some rm ∧
      (handle_discovery registry req now).2.peers =
        (rm.filter (fun p => decide (p.1 ≠ req.peer_id))).map
          (fun p => PeerInfo.mk p.1 p.2.addrs) ∧
      (∀ pid a, PeerInfo.mk pid a ∈ (handle_discovery registry req now).2.peers ↔
        (pid ≠ req.peer_id ∧ ∃ e : PeerEntry, (pid, e) ∈ rm ∧ e.addrs = a)) ∧
      (∀ info ∈ (handle_discovery registry req now).2.peers,
        info.peer_id ≠ req.peer_id) := by
  refine ⟨assocInsert req.peer_id ⟨req.addrs, now⟩
    ((assocLookup req.room
      (assocUpdate req.room (pruneRoom now) registry)).getD []),
    ?_, rfl, ?_, ?_⟩
  · rw [handle_discovery_fst]
    exact assocLookup_insert _ _ _
  · intro pid a
    rw [handle_discovery_snd]
    simp only [List.mem_map, List.mem_filter, decide_eq_true_eq]
    constructor
    · rintro ⟨⟨k, e⟩, ⟨hmem, hne⟩, heq⟩
      cases heq
      exact ⟨hne, e, hmem, rfl⟩
    · rintro ⟨hne, e, hmem, rfl⟩
      exact ⟨(pid, e), ⟨hmem, hne⟩, rfl⟩
  · intro info hinfo
    rw [handle_discovery_snd] at hinfo
    rcases List.mem_map.mp hinfo with ⟨q, hq, heq⟩
    have hne := (List.mem_filter.mp hq).2
    rw [← heq]
    simpa using hne

/-- Witness for C1: P2 registering after P1 sees P1 and not itself. -/
theorem handle_discovery_response_exact_witness :
    PeerInfo.mk "p" ["x"] ∈ (handle_discovery [("a", [("p", ⟨["x"], 0⟩)])]
      ⟨"a", "r", ["y"]⟩ 1).2.peers ∧
    (PeerInfo.mk "p" ["x"]).peer_id ≠ "r" := by
  obtain ⟨rm, hlook, hresp, hiff, hself⟩ :=
    handle_discovery_response_exact [("a", [("p", ⟨["x"], 0⟩)])] ⟨"a", "r", ["y"]⟩ 1
  constructor
  · have h2 : assocLookup "a" (handle_discovery [("a", [("p", ⟨["x"], 0⟩)])]
        ⟨"a", "r", ["y"]⟩ 1).1 = some [("p", ⟨["x"], 0⟩), ("r", ⟨["y"], 1⟩)] := by
      decide
    rw [hlook] at h2
    injection h2 with h3
    rw [h3] at hiff
    exact (hiff "p" ["x"]).mpr ⟨by decide, ⟨["x"], 0⟩, by decide, rfl⟩
  · exact hself (PeerInfo.mk "p" ["x"]) (by decide)

/-- C3: after `handle_discovery`, the requested room (created if
absent) maps the requester to exactly `{addrs, last_seen = now}`: the
address list is replaced wholesale (an empty list verbatim) and the
timestamp is refreshed. -/
theorem handle_discovery_upsert (registry : RoomRegistry)
    (req : DiscoveryRequest) (now : Nat) :
    ∃ rm : Room,
      assocLookup req.room (handle_discovery registry req now).1 = some rm ∧
      assocLookup req.peer_id rm = some ⟨req.addrs, now⟩ := by
  refine ⟨assocInsert req.peer_id ⟨req.addrs, now⟩
    ((assocLookup req.room
      (assocUpdate req.room (pruneRoom now) registry)).getD []),
    ?_, assocLookup_insert _ _ _⟩
  rw [handle_discovery_fst]
  exact assocLookup_insert _ _ _

/-- Witness for C3: re-registration replaces the address list
wholesale (here with an empty list) and refreshes the timestamp. -/
theorem handle_discovery_upsert_witness :
    assocLookup "r" ((assocLookup "a" (handle_discovery
      [("a", [("r", ⟨["old"], 0⟩)])] ⟨"a", "r", []⟩ 5).1).getD []) =
      some ⟨[], 5⟩ := by
  obtain ⟨rm, hlook, hup⟩ :=
    handle_discovery_upsert [("a", [("r", ⟨["old"], 0⟩)])] ⟨"a", "r", []⟩ 5
  rw [hlook]
  exact hup

/-- C6: `handle_discovery` leaves every room other than the requested
one untouched, and a peer absent from the requested room beforehand
never appears in the response computed for it. -/
theorem handle_discovery_frame (registry : RoomRegistry)
    (req : DiscoveryRequest) (now : Nat) :
    (∀ r, r ≠ req.room →
      assocLookup r (handle_discovery registry req now).1 =
        assocLookup r registry) ∧
    (∀ p : String,
      assocLookup p ((assocLookup req.room registry).getD []) = none →
      ∀ info ∈ (handle_discovery registry req now).2.peers,
        info.peer_id ≠ p) := by
  constructor
  · exact fun r hr => handle_discovery_lookup_other registry req now r hr
  · intro p hp info hinfo
    rw [handle_discovery_snd] at hinfo
    rcases List.mem_map.mp hinfo with ⟨q, hq, heq⟩
    obtain ⟨hqmem, hqne⟩ := List.mem_filter.mp hq
    rw [← heq]
    intro hcon
    have hq1 : q.1 = p := hcon
    have hqne' : q.1 ≠ req.peer_id := by simpa using hqne
    have hmem1 : q ∈ ((assocLookup req.room
        (assocUpdate req.room (pruneRoom now) registry)).getD []) := by
      have := (mem_assocInsert_ne hqne').mp (by
        obtain ⟨q1, q2⟩ := q
        exact hqmem)
      exact this
    rw [assocLookup_update] at hmem1
    cases hl : assocLookup req.room registry with
    | none =>
      rw [hl] at hmem1
      simp at hmem1
    | some rm =>
      rw [hl] at hmem1
      simp only [Option.map_some', Option.getD_some] at hmem1
      have hqrm : q ∈ rm := List.mem_of_mem_filter hmem1
      rw [hl] at hp
      simp only [Option.getD_some] at hp
      have := assocLookup_eq_none.mp hp q.2
      rw [← hq1] at this
      exact this (by simpa using hqrm)

/-- Witness for C6 at a concrete registry and request. -/
theorem handle_discovery_frame_witness :
    assocLookup "b" (handle_discovery [("a", [("p", ⟨["x"], 0⟩)])]
      ⟨"a", "r", ["y"]⟩ 1).1 = assocLookup "b" [("a", [("p", ⟨["x"], 0⟩)])] ∧
    (PeerInfo.mk "p" ["x"]).peer_id ≠ "q" := by
  constructor
  · exact (handle_discovery_frame _ _ _).1 "b" (by decide)
  · exact (handle_discovery_frame [("a", [("p", ⟨["x"], 0⟩)])] ⟨"a", "r", ["y"]⟩ 1).2
      "q" (by decide) (PeerInfo.mk "p" ["x"]) (by decide)

/-- C2: registering in an existing room first removes exactly the
entries whose age `now - last_seen` is at least `PEER_TTL` (the
boundary age = TTL is removed) and keeps every strictly younger entry;
a stale peer appears neither in the response nor in the room's state
afterwards (for the state, unless it is the requester itself, whose
entry is refreshed). -/
theorem handle_discovery_ttl (registry : RoomRegistry) (req : DiscoveryRequest)
    (now : Nat) (rm : Room) (hwf : WF registry)
    (hrm : assocLookup req.room registry = some rm) :
    (∀ p e, (p, e) ∈ pruneRoom now rm ↔
      (p, e) ∈ rm ∧ now - e.last_seen < PEER_TTL) ∧
    ∃ rm' : Room,
      assocLookup req.room (handle_discovery registry req now).1 = some rm' ∧
      (∀ p e, p ≠ req.peer_id →
        ((p, e) ∈ rm' ↔ (p, e) ∈ rm ∧ now - e.last_seen < PEER_TTL)) ∧
      (∀ p e, (p, e) ∈ rm → PEER_TTL ≤ now - e.last_seen →
        ((∀ info ∈ (handle_discovery registry req now).2.peers,
            info.peer_id ≠ p) ∧
          (p ≠ req.peer_id → assocLookup p rm' = none))) := by
  refine ⟨?_, ?_⟩
  · intro p e
    rw [show pruneRoom now rm =
      rm.filter (fun e => decide (now - e.2.last_seen < PEER_TTL)) from rfl,
      List.mem_filter]
    simp
  have hnd_rm : NodupKeys rm := hwf.2 _ (assocLookup_mem hrm)
  have hlook1 : assocLookup req.room
      (assocUpdate req.room (pruneRoom now) registry) = some (pruneRoom now rm) := by
    rw [assocLookup_update, hrm]
    rfl
  refine ⟨assocInsert req.peer_id ⟨req.addrs, now⟩ (pruneRoom now rm), ?_, ?_, ?_⟩
  · rw [handle_discovery_fst, hlook1, assocLookup_insert]
    rfl
  · intro p e hp
    constructor
    · intro hmem
      have hmem' : (p, e) ∈ pruneRoom now rm :=
        (mem_assocInsert_ne
          (show ((p, e) : String × PeerEntry).1 ≠ req.peer_id from hp)).mp hmem
      have h := List.mem_filter.mp hmem'
      exact ⟨h.1, by simpa using h.2⟩
    · rintro ⟨hmem, hfresh⟩
      exact (mem_assocInsert_ne
        (show ((p, e) : String × PeerEntry).1 ≠ req.peer_id from hp)).mpr
        (List.mem_filter.mpr ⟨hmem, by simpa using hfresh⟩)
  · intro p e hmem hstale
    have hfp : assocLookup p rm = some e := mem_assocLookup hnd_rm hmem
    constructor
    · intro info hinfo
      rw [handle_discovery_snd] at hinfo
      rcases List.mem_map.mp hinfo with ⟨q, hq, heq⟩
      obtain ⟨hqmem, hqne⟩ := List.mem_filter.mp hq
      rw [← heq]
      intro hcon
      have hq1 : q.1 = p := hcon
      have hqne' : q.1 ≠ req.peer_id := by simpa using hqne
      have hmem1 : q ∈ ((assocLookup req.room
          (assocUpdate req.room (pruneRoom now) registry)).getD []) :=
        (mem_assocInsert_ne hqne').mp hqmem
      rw [hlook1] at hmem1
      simp only [Option.getD_some] at hmem1
      obtain ⟨hqrm, hqfresh⟩ := List.mem_filter.mp hmem1
      have hlq : assocLookup q.1 rm = some q.2 := mem_assocLookup hnd_rm hqrm
      rw [hq1, hfp] at hlq
      injection hlq with he
      have hfresh : now - q.2.last_seen < PEER_TTL := by simpa using hqfresh
      rw [← he] at hfresh
      omega
    · intro hp
      rw [assocLookup_insert_ne _ _ hp]
      rw [show pruneRoom now rm =
        rm.filter (fun e => decide (now - e.2.last_seen < PEER_TTL)) from rfl]
      rw [assocLookup_filter hnd_rm, hfp]
      have hcond : ¬ (now - e.last_seen < PEER_TTL) := by omega
      simp [hcond]

/-- Witness for C2: at age exactly TTL (30), the stale peer is gone
from the room's state after the next registration. -/
theorem handle_discovery_ttl_witness :
    assocLookup "p" ((assocLookup "a" (handle_discovery
      [("a", [("p", ⟨["x"], 0⟩)])] ⟨"a", "r", ["y"]⟩ 30).1).getD []) = none := by
  obtain ⟨hprune, rm', hlook, hmem, hstale⟩ :=
    handle_discovery_ttl [("a", [("p", ⟨["x"], 0⟩)])] ⟨"a", "r", ["y"]⟩ 30
      [("p", ⟨["x"], 0⟩)] (by unfold WF NodupKeys; decide) (by decide)
  rw [hlook]
  exact (hstale "p" ⟨["x"], 0⟩ (by decide) (by decide)).2 (by decide)

/-- C9: room membership is keyed by peer id, so a response never lists
the same peer id twice. -/
theorem handle_discovery_response_ids_nodup (registry : RoomRegistry)
    (req : DiscoveryRequest) (now : Nat) (hwf : WF registry) :
    ((handle_discovery registry req now).2.peers.map PeerInfo.peer_id).Nodup := by
  rw [handle_discovery_snd, List.map_map]
  exact nodupKeys_filter (fun p => decide (p.1 ≠ req.peer_id))
    (nodupKeys_room_after hwf.2)

/-- Witness for C9 at a concrete two-member room. -/
theorem handle_discovery_response_ids_nodup_witness :
    ((handle_discovery [("a", [("p", ⟨["x"], 5⟩), ("q", ⟨[], 5⟩)])]
      ⟨"a", "r", []⟩ 6).2.peers.map PeerInfo.peer_id).Nodup :=
  handle_discovery_response_ids_nodup _ _ _ (by unfold WF NodupKeys; decide)

/-- C4: `remove_peer` deletes the peer's entry from every room, then
drops every room left empty; looked up in the result, a room is its
old value minus the peer (or gone if that is empty), every other
peer's entry — addresses and timestamp — being untouched. -/
theorem remove_peer_spec (registry : RoomRegistry) (p : String) (hwf : WF registry) :
    (∀ r, assocLookup r (remove_peer registry p) =
      (assocLookup r registry).bind
        (fun rm => if (assocErase p rm).isEmpty then none
          else some (assocErase p rm))) ∧
    (∀ r rm, assocLookup r registry = some rm →
      (assocLookup p (assocErase p rm) = none ∧
        ∀ q, q ≠ p → assocLookup q (assocErase p rm) = assocLookup q rm)) := by
  constructor
  · exact remove_peer_lookup hwf
  · intro r rm hrm
    refine ⟨assocLookup_erase (hwf.2 _ (assocLookup_mem hrm)), ?_⟩
    intro q hq
    exact assocLookup_erase_ne _ hq

/-- Witness for C4: removing `p` from a registry where it shares room
`a` with `q` and is alone in room `b`. -/
theorem remove_peer_spec_witness :
    assocLookup "a" (remove_peer
      [("a", [("p", ⟨["x"], 0⟩), ("q", ⟨["y"], 1⟩)]), ("b", [("p", ⟨[], 2⟩)])] "p") =
      (assocLookup "a"
        ([("a", [("p", ⟨["x"], 0⟩), ("q", ⟨["y"], 1⟩)]),
          ("b", [("p", ⟨[], 2⟩)])] : RoomRegistry)).bind
        (fun rm => if (assocErase "p" rm).isEmpty then none
          else some (assocErase "p" rm)) :=
  (remove_peer_spec _ "p" (by unfold WF NodupKeys; decide)).1 "a"

/-- C5: "every room in the mapping has at least one entry" (together
with the key uniqueness `HashMap` maintains) holds of the empty
registry and is preserved by `handle_discovery` and `remove_peer`. -/
theorem registry_nonempty_invariant :
    Inv emptyRegistry ∧
    (∀ (registry : RoomRegistry) (req : DiscoveryRequest) (now : Nat),
      Inv registry → Inv (handle_discovery registry req now).1) ∧
    (∀ (registry : RoomRegistry) (p : String),
      Inv registry → Inv (remove_peer registry p)) :=
  ⟨inv_empty, fun _ _ _ h => inv_handle_discovery h, fun _ _ h => inv_remove_peer h⟩

/-- Witness for C5: preservation at a concrete registration. -/
theorem registry_nonempty_invariant_witness :
    Inv (handle_discovery [("a", [("p", ⟨["x"], 0⟩)])] ⟨"a", "r", []⟩ 1).1 :=
  registry_nonempty_invariant.2.1 _ _ _ (by unfold Inv WF NodupKeys; decide)

/-- C10: `remove_peer` is idempotent, and if the peer is present in no
room the registry is left exactly unchanged. -/
theorem remove_peer_idempotent (registry : RoomRegistry) (p : String)
    (h : Inv registry) :
    remove_peer (remove_peer registry p) p = remove_peer registry p ∧
    ((∀ r ∈ registry, assocLookup p r.2 = none) →
      remove_peer registry p = registry) := by
  obtain ⟨hwf, hne⟩ := h
  constructor
  · apply remove_peer_of_absent
    · exact (inv_remove_peer ⟨hwf, hne⟩).2
    · intro r hr
      rw [remove_peer_eq_filter p hwf.1] at hr
      rcases List.mem_map.mp (List.mem_of_mem_filter hr) with ⟨x, hx, hfx⟩
      rw [← hfx]
      exact assocLookup_erase (hwf.2 x hx)
  · intro habs
    exact remove_peer_of_absent hne habs

/-- Witness for C10: idempotence on a two-member room, and a strict
no-op when the peer is absent. -/
theorem remove_peer_idempotent_witness :
    remove_peer (remove_peer [("a", [("p", ⟨["x"], 0⟩), ("q", ⟨[], 1⟩)])] "p") "p" =
      remove_peer [("a", [("p", ⟨["x"], 0⟩), ("q", ⟨[], 1⟩)])] "p" ∧
    remove_peer [("b", [("q", ⟨[], 1⟩)])] "p" = [("b", [("q", ⟨[], 1⟩)])] := by
  constructor
  · exact (remove_peer_idempotent _ "p" (by unfold Inv WF NodupKeys; decide)).1
  · exact (remove_peer_idempotent _ "p" (by unfold Inv WF NodupKeys; decide)).2
      (by decide)

/-- C7: `load_or_create_identity` fails exactly when the decode path
fails (so a new keypair is generated) and persisting it fails — the
encoder returns an error or the write fails; an unreadable or
undecodable file alone is not an error: a fresh keypair is generated
and its encoding overwrites the path. -/
theorem load_or_create_identity_error_iff (o : IdentOracle) (gen : Keypair)
    (fs : FsState) :
    (load_or_create_identity o gen fs = .error () ↔
      (¬ decodable o fs ∧
        (o.to_protobuf_encoding gen = none ∨ fs.writeFails = true))) ∧
    (∀ enc, ¬ decodable o fs → o.to_protobuf_encoding gen = some enc →
      fs.writeFails = false →
      load_or_create_identity o gen fs = .ok (gen, ⟨some enc, false⟩)) := by
  by_cases hdec : decodable o fs
  · obtain ⟨kp, hok⟩ := load_ok_of_decodable gen hdec
    constructor
    · rw [hok]
      simp [hdec]
    · intro enc hnd
      exact absurd hdec hnd
  · have hpe := load_eq_persist_of_not_decodable gen hdec
    constructor
    · rw [hpe, generateAndPersist_error_iff]
      simp [hdec]
    · intro enc hnd henc hw
      rw [hpe]
      simp [generateAndPersist, henc, hw]

/-- Witness for C7: with an absent file, a working encoder and a
working write, the call returns the generated keypair and overwrites
the path with its encoding. -/
theorem load_or_create_identity_error_iff_witness :
    load_or_create_identity
      ⟨fun _ => none, fun _ => none, fun kp => some kp.secret, fun kp => kp.secret⟩
      ⟨[1, 2]⟩ ⟨none, false⟩ = .ok (⟨[1, 2]⟩, ⟨some [1, 2], false⟩) :=
  (load_or_create_identity_error_iff _ _ _).2 [1, 2]
    (by simp [decodable]) rfl rfl

/-- C8: a keypair generated and persisted by `load_or_create_identity`
is, provided the codec round-trips, returned unchanged (hence with a
byte-identical derived peer id) by a subsequent call over the
unchanged file; likewise a raw 32-byte secret that decodes is
returned as-is. -/
theorem load_or_create_identity_roundtrip :
    (∀ (o : IdentOracle) (gen gen2 kp1 : Keypair) (fs fs1 : FsState),
      ¬ decodable o fs →
      load_or_create_identity o gen fs = .ok (kp1, fs1) →
      (∀ enc, o.to_protobuf_encoding gen = some enc →
        o.from_protobuf_encoding enc = some gen) →
      (load_or_create_identity o gen2 fs1 = .ok (kp1, fs1) ∧
        o.to_peer_id kp1 = o.to_peer_id gen)) ∧
    (∀ (o : IdentOracle) (gen kp : Keypair) (fs : FsState) (data : List Nat),
      fs.contents = some data →
      o.from_protobuf_encoding data = none →
      data.length = 32 →
      o.ed25519_from_bytes data = some kp →
      load_or_create_identity o gen fs = .ok (kp, fs)) := by
  constructor
  · intro o gen gen2 kp1 fs fs1 hnd h1 hrt
    rw [load_eq_persist_of_not_decodable gen hnd] at h1
    obtain ⟨hkp, enc, henc, hw, hfs1⟩ := generateAndPersist_ok_elim h1
    subst hkp
    subst hfs1
    refine ⟨?_, rfl⟩
    simp [load_or_create_identity, hrt enc henc]
  · intro o gen kp fs data hc hfp h32 hed
    simp [load_or_create_identity, hc, hfp, h32, hed]

/-- Witness for C8: a concrete generate–persist–reload cycle with an
honestly round-tripping codec, and a concrete raw 32-byte load. -/
theorem load_or_create_identity_roundtrip_witness :
    (load_or_create_identity
      ⟨fun b => some ⟨b⟩, fun _ => none, fun kp => some kp.secret, fun kp => kp.secret⟩
      ⟨[9]⟩ ⟨some [7], false⟩ = .ok (⟨[7]⟩, ⟨some [7], false⟩) ∧
      (IdentOracle.to_peer_id
        ⟨fun b => some ⟨b⟩, fun _ => none, fun kp => some kp.secret, fun kp => kp.secret⟩
        ⟨[7]⟩ =
       IdentOracle.to_peer_id
        ⟨fun b => some ⟨b⟩, fun _ => none, fun kp => some kp.secret, fun kp => kp.secret⟩
        ⟨[7]⟩)) ∧
    load_or_create_identity
      ⟨fun _ => none, fun b => some ⟨b⟩, fun kp => some kp.secret, fun kp => kp.secret⟩
      ⟨[1]⟩ ⟨some (List.replicate 32 0), false⟩ =
        .ok (⟨List.replicate 32 0⟩, ⟨some (List.replicate 32 0), false⟩) := by
  constructor
  · exact load_or_create_identity_roundtrip.1
      ⟨fun b => some ⟨b⟩, fun _ => none, fun kp => some kp.secret, fun kp => kp.secret⟩
      ⟨[7]⟩ ⟨[9]⟩ ⟨[7]⟩ ⟨none, false⟩ ⟨some [7], false⟩
      (by simp [decodable]) rfl (fun enc h => by cases h; rfl)
  · exact load_or_create_identity_roundtrip.2
      ⟨fun _ => none, fun b => some ⟨b⟩, fun kp => some kp.secret, fun kp => kp.secret⟩
      ⟨[1]⟩ ⟨List.replicate 32 0⟩ ⟨some (List.replicate 32 0), false⟩
      (List.replicate 32 0) rfl rfl (by simp) rfl

end Sutro
